import Mathlib

/-!
Verification development for the RobustFill model (src/RobustFill.py).

Embedding conventions:
* Token types are an arbitrary type with decidable equality (the Python code
  uses characters / strings); tensors of token ids become lists of natural
  numbers.
* An integer tensor of shape (length, batch) is represented column-major, as a
  list of columns (one column per batch element), since every operation in the
  code that the claims touch works column-wise.
* Real-valued parameters and scores are represented over the rationals; the
  opaque neural quantities (the per-step log-softmax values fed to the masked
  score accumulation) are abstracted as a function from the timestep to the
  selected token's log-probability, exactly as they enter lines 271-282 of the
  source.
* Python exceptions become an explicit error type.  Looking a token up in a
  vocabulary index dict raises a KeyError for an absent token (the
  UnknownTokenError of the design document); calling max() on an empty batch
  raises a ValueError / IndexError, modelled by a distinct error constructor.
-/

namespace RobustFill

/-- Errors raised while tensorizing a batch.  The unknownToken constructor
models the KeyError raised on line 305 / line 317 of the source when a token
is absent from the vocabulary index (the UnknownTokenError of the design
document); emptyBatch models the ValueError / IndexError raised by
max() / inputsss[0] when the batch is empty. -/
inductive EncodeErr where
  | unknownToken : EncodeErr
  | emptyBatch : EncodeErr
deriving DecidableEq

/-- Embedding of the token-to-index dictionary built by _refreshVocabularyIndex
(lines 146-151): a dict comprehension over the positions of the vocabulary, a
later position overwriting an earlier one, so a token is mapped to its last
position; absent tokens have no entry (lookup is none). -/
def vocabIndexOf {α : Type} [DecidableEq α] (vocab : List α) (tok : α) : Option Nat :=
  ((List.range vocab.length).filter (fun j => decide (vocab.get? j = some tok))).getLast?

/-- Embedding of one dict lookup vocabulary_index[x] (line 305 / line 317): the
token's index when present, a KeyError (UnknownTokenError) when absent. -/
def encodeTok {α : Type} [DecidableEq α] (vocab : List α) (tok : α) :
    Except EncodeErr Nat :=
  match vocabIndexOf vocab tok with
  | some j => Except.ok j
  | none => Except.error EncodeErr.unknownToken

/-- Embedding of the per-sequence encoding shared by _inputsToTensors (line 305)
and _targetToTensor (line 317): each token is replaced by its index in the
vocabulary dict, a missing entry raising a KeyError (UnknownTokenError). -/
def encodeSeq {α : Type} [DecidableEq α] (vocab : List α) (s : List α) :
    Except EncodeErr (List Nat) :=
  s.mapM (encodeTok vocab)

/-- Embedding of _targetToTensor (lines 309-318).  The (maxlen+1, batch)
tensor, initialized to the EOS id (= vocabulary length) and overwritten on the
first len(s) rows of each column, is represented as the list of its columns:
each column is the encoded sequence followed by EOS padding up to maxlen+1.
An empty batch makes the max() on line 313 raise (ValueError), modelled by
the emptyBatch error. -/
def targetToTensor {α : Type} [DecidableEq α] (vocab : List α) (targets : List (List α)) :
    Except EncodeErr (List (List Nat)) :=
  if targets = [] then Except.error EncodeErr.emptyBatch
  else
    let maxlen := (targets.map List.length).foldr max 0
    targets.mapM (fun s =>
      (encodeSeq vocab s).map
        (fun ids => ids ++ List.replicate (maxlen + 1 - s.length) vocab.length))

/-- Embedding of the per-column decoding of _tensorToOutput (lines 325-333):
if the column starts with the EOS id the output is empty; otherwise the column
is truncated at the first EOS id when one occurs, and each id is mapped back
through the vocabulary. -/
def decodeCol {α : Type} [DecidableEq α] [Inhabited α] (vocab : List α) (l : List Nat) :
    List α :=
  if l.headD vocab.length = vocab.length then []
  else if vocab.length ∈ l then
    (l.take (l.indexOf vocab.length)).map (fun x => vocab.getD x default)
  else
    l.map (fun x => vocab.getD x default)

/-- Embedding of _tensorToOutput (lines 320-334), mapping the per-column
decoder over the columns of the tensor. -/
def tensorToOutput {α : Type} [DecidableEq α] [Inhabited α] (vocab : List α)
    (cols : List (List Nat)) : List (List α) :=
  cols.map (decodeCol vocab)

/-- Embedding of _inputsToTensors (lines 291-307).  For each encoder index i
and example index j (the number of examples read off the first instance, line
299), the batch of sequences [x[j][i] for x in inputsss] is padded and encoded
against the i-th input vocabulary exactly as in targetToTensor.  Out-of-range
accesses x[j][i] (a ragged batch, an IndexError in Python) are modelled by the
empty sequence; the theorems about this function restrict to well-shaped
batches, where the two coincide.  An empty batch makes inputsss[0] on line 299
raise, modelled by the emptyBatch error. -/
def inputsToTensors {α : Type} [DecidableEq α] (vocabs : List (List α))
    (inputsss : List (List (List (List α)))) :
    Except EncodeErr (List (List (List (List Nat)))) :=
  if inputsss = [] then Except.error EncodeErr.emptyBatch
  else
    (List.range vocabs.length).mapM (fun i =>
      (List.range (inputsss.headD []).length).mapM (fun j =>
        let inputs := inputsss.map (fun x => (x.getD j []).getD i [])
        let maxlen := (inputs.map List.length).foldr max 0
        let vocab := vocabs.getD i []
        inputs.mapM (fun s =>
          (encodeSeq vocab s).map
            (fun ids => ids ++ List.replicate (maxlen + 1 - s.length) vocab.length))))

/-- The slice of the model state touched by with_target_vocabulary: the target
vocabulary, the output projection V (weight rows and bias entries, one per
target token plus a final EOS row), and the decoder cell input weight matrix
represented by its columns (one column per target token plus a final EOS
column), matching the column slices weight_ih[:, j:j+1] taken on line 79. -/
structure RFModel (α : Type) where
  target_vocabulary : List α
  Vweight : List (List ℚ)
  Vbias : List ℚ
  decoder_ih : List (List ℚ)
deriving DecidableEq

/-- Embedding of the parameter surgery of with_target_vocabulary (lines
70-97): for each token of the new vocabulary, if it occurs in the old
vocabulary its V row, bias entry and decoder input column are copied from the
old index (list.index, the first occurrence, line 76); otherwise the row and
column are zeros of the old width and the bias entry is -10 (lines 81-83).
The old last row / bias entry / column (the EOS slot, lines 85-87) is appended
at the end. -/
def transfer {α : Type} [DecidableEq α] (m : RFModel α) (tv : List α) : RFModel α :=
  { target_vocabulary := tv
    Vweight := (tv.map (fun tok =>
        if tok ∈ m.target_vocabulary then
          m.Vweight.getD (m.target_vocabulary.indexOf tok) []
        else
          List.replicate (m.Vweight.headD []).length 0)) ++ [m.Vweight.getLastD []]
    Vbias := (tv.map (fun tok =>
        if tok ∈ m.target_vocabulary then
          m.Vbias.getD (m.target_vocabulary.indexOf tok) 0
        else
          (-10 : ℚ))) ++ [m.Vbias.getLastD 0]
    decoder_ih := (tv.map (fun tok =>
        if tok ∈ m.target_vocabulary then
          m.decoder_ih.getD (m.target_vocabulary.indexOf tok) []
        else
          List.replicate (m.decoder_ih.headD []).length 0)) ++ [m.decoder_ih.getLastD []] }

/-- Embedding of with_target_vocabulary (lines 63-101).  When the new
vocabulary equals the current one the function returns None (line 68) without
touching the model.  Otherwise the model itself is mutated in place (lines
89-97: the new vocabulary and the transferred parameters are written into
self) and a deep copy of the mutated model is returned (line 101).  The result
is the pair (state of the original model after the call, returned model); the
deep copy is an equal but unaliased value, so both components are the
transferred model. -/
def withTargetVocabulary {α : Type} [DecidableEq α] (m : RFModel α) (tv : List α) :
    Option (RFModel α × RFModel α) :=
  if tv = m.target_vocabulary then none
  else
    some (transfer m tv, transfer m tv)

/-- Embedding of the encoder active mask (lines 248-257) for one (encoder,
example, batch element): the mask starts all ones, and the loop writes
active[k+1] = active[k] * (token at k is not the EOS id), each position being
written exactly once before it is read, so the final mask satisfies exactly
this recurrence.  toks is the column of token ids read for this batch
element and eos the encoder's EOS id (v_inputs[i]). -/
def activeAt (toks : List Nat) (eos : Nat) : Nat → Bool
  | 0 => true
  | k + 1 => activeAt toks eos k && decide (toks.getD k eos ≠ eos)

/-- Embedding of the decoder loop state for one batch element in score mode
(lines 271-282): runScoreAux lp toks eos k is the pair (running score, active
flag) before timestep k.  At step k the selected token's log-probability lp k
(choose(logsoftmax, target[k]), line 281) is added when the element is still
active, and the active flag is then and-ed with target[k] differing from the
target EOS id (line 282). -/
def runScoreAux (lp : Nat → ℚ) (toks : List Nat) (eos : Nat) : Nat → ℚ × Bool
  | 0 => (0, true)
  | k + 1 =>
    let sa := runScoreAux lp toks eos k
    (sa.1 + lp k * (if sa.2 then 1 else 0), sa.2 && decide (toks.getD k eos ≠ eos))

/-- The final running score of the score-mode decoder loop for one batch
element: the loop on line 272 runs for max_length_target = target.size(0)
timesteps, the length of the target column. -/
def runScore (lp : Nat → ℚ) (toks : List Nat) (eos : Nat) : ℚ :=
  (runScoreAux lp toks eos toks.length).1

/-- Embedding of the multi-example pooling on line 278: torch.max over the
example dimension of the stacked per-example feature vectors, i.e. the
element-wise maximum of the list of feature vectors. -/
def poolMax (fc : List (List ℚ)) : List ℚ :=
  match fc with
  | [] => []
  | v :: vs => vs.foldl (fun acc w => List.zipWith max acc w) v

/-- The biased exponential scores inside attend (lines 233-237): entry i is
exp(score i + mask i), where the additive attention mask is 0 at active
positions and -inf (log 0) at inactive ones, so the entry is exp(score i) at
an active position and exactly 0 at an inactive one.  The argument e is the
list of the exponentials exp(score i) of the raw bilinear scores, hence the
positivity hypotheses carried by the theorems about this function. -/
def maskedExp (e : List ℚ) (a : List Bool) : List ℚ :=
  (e.zip a).map (fun p => if p.2 then p.1 else 0)

/-- The attention weights produced by the softmax on line 237: each biased
exponential divided by their sum over the length axis. -/
def attendWeights (e : List ℚ) (a : List Bool) : List ℚ :=
  (maskedExp e a).map (fun x => x / (maskedExp e a).sum)

/-- The total attention weight carried by the active positions: the sum of the
weights at positions whose active flag is true. -/
def activeWeightSum (e : List ℚ) (a : List Bool) : ℚ :=
  ((((attendWeights e a).zip a).filter (fun p => p.2)).map Prod.fst).sum

/-- The dynamic type of one cell inputs[i][j] handed to _run (line 202): a
LongTensor of shape (length, batch) -- represented column-major like the rest
of this development -- or, when the caller forgot to tensorize, a raw example,
i.e. the tuple of raw token sequences sitting at batch_inputs[i][j]. -/
inductive RunCell (α : Type) where
  | tensor : List (List Nat) → RunCell α
  | rawExample : List (List α) → RunCell α
deriving DecidableEq

/-- The attribute access inputs[i][j].size(0) performed on line 209: defined
(the row count, i.e. the column length) on a tensor, an AttributeError
(modelled none) on a raw list or tuple. -/
def runSize0 {α : Type} : RunCell α → Option Nat
  | RunCell.tensor cols => some (cols.headD []).length
  | RunCell.rawExample _ => none

/-- The preamble of _run (line 209), reading inputs[i][j].size(0) for every i
and j: succeeds exactly when every cell is a tensor. -/
def runMaxLengths {α : Type} (inputs : List (List (RunCell α))) :
    Option (List (List Nat)) :=
  inputs.mapM (fun row => row.mapM runSize0)

/-- The argument sample (lines 123-127) passes to _run: the batch tensorized
by _inputsToTensors (line 124), each (encoder, example) tensor a RunCell
tensor. -/
def sampleRunArg {α : Type} [DecidableEq α] (vocabs : List (List α))
    (batch : List (List (List (List α)))) :
    Except EncodeErr (List (List (RunCell α))) :=
  (inputsToTensors vocabs batch).map (fun ts => ts.map (fun row => row.map RunCell.tensor))

/-- The argument sampleAndScore (lines 129-144) passes to _run on lines 132
and 140: the raw batch_inputs itself (the tensorized inputs computed on line
130 are never used), so cell [i][j] is the j-th example of the i-th instance,
a tuple of raw token sequences. -/
def sampleAndScoreRunArg {α : Type} (batch : List (List (List (List α)))) :
    List (List (RunCell α)) :=
  batch.map (fun inst => inst.map RunCell.rawExample)

/-- A concrete one-instance batch (one example, two encoder slots) shaped like
the batches built by the training driver at the bottom of the source file. -/
def demoBatch : List (List (List (List Nat))) := [[[[0], [0, 1]]]]

/-- Input vocabularies matching demoBatch. -/
def demoVocabs : List (List Nat) := [[0], [0, 1]]

/-- A small concrete model used to evaluate the vocabulary transfer: one
target token, so two V rows, two bias entries and two decoder input columns
(the token slot and the EOS slot). -/
def demoModel : RFModel Nat :=
  { target_vocabulary := [0]
    Vweight := [[1], [2]]
    Vbias := [3, 4]
    decoder_ih := [[5], [6]] }

lemma activeAt_succ_true {toks : List Nat} {eos k : Nat}
    (h : activeAt toks eos (k + 1) = true) : activeAt toks eos k = true := by
  have h2 := h
  simp only [activeAt, Bool.and_eq_true] at h2
  exact h2.1

lemma activeAt_mono {toks : List Nat} {eos : Nat} :
    ∀ {j k : Nat}, j ≤ k → activeAt toks eos k = true → activeAt toks eos j = true := by
  intro j k h hk
  induction k with
  | zero =>
    have hj : j = 0 := Nat.le_zero.mp h
    rw [hj]; rfl
  | succ k ih =>
    rcases Nat.lt_or_ge j (k + 1) with h1 | h2
    · exact ih (Nat.lt_succ_iff.mp h1) (activeAt_succ_true hk)
    · have hj : j = k + 1 := le_antisymm h h2
      rw [hj]; exact hk

lemma activeAt_false_mono {toks : List Nat} {eos : Nat} {j k : Nat} (h : j ≤ k)
    (hj : activeAt toks eos j = false) : activeAt toks eos k = false := by
  cases hk : activeAt toks eos k with
  | false => rfl
  | true => rw [activeAt_mono h hk] at hj; exact hj.symm ▸ rfl

lemma runScoreAux_active (lp : Nat → ℚ) (toks : List Nat) (eos : Nat) :
    ∀ k, (runScoreAux lp toks eos k).2 = activeAt toks eos k := by
  intro k
  induction k with
  | zero => rfl
  | succ k ih => simp [runScoreAux, activeAt, ih]

lemma runScoreAux_score_succ_of_false {lp : Nat → ℚ} {toks : List Nat} {eos k : Nat}
    (h : (runScoreAux lp toks eos k).2 = false) :
    (runScoreAux lp toks eos (k + 1)).1 = (runScoreAux lp toks eos k).1 := by
  simp [runScoreAux, h]

lemma runScoreAux_score_const {lp : Nat → ℚ} {toks : List Nat} {eos m : Nat}
    (hm : activeAt toks eos m = false) :
    ∀ k, m ≤ k → (runScoreAux lp toks eos k).1 = (runScoreAux lp toks eos m).1 := by
  intro k hk
  induction k with
  | zero =>
    have : m = 0 := Nat.le_zero.mp hk
    rw [this]
  | succ k ih =>
    rcases Nat.lt_or_ge m (k + 1) with h1 | h2
    · have hmk : m ≤ k := Nat.lt_succ_iff.mp h1
      have hfk : (runScoreAux lp toks eos k).2 = false := by
        rw [runScoreAux_active]; exact activeAt_false_mono hmk hm
      rw [runScoreAux_score_succ_of_false hfk]; exact ih hmk
    · have hj : m = k + 1 := le_antisymm hk h2
      rw [hj]

lemma activeAt_true_of_no_eos {toks : List Nat} {eos : Nat} :
    ∀ {k : Nat}, (∀ i, i < k → toks.getD i eos ≠ eos) → activeAt toks eos k = true := by
  intro k
  induction k with
  | zero => intro _; rfl
  | succ k ih =>
    intro h
    have h1 : activeAt toks eos k = true := ih (fun i hi => h i (Nat.lt_succ_of_lt hi))
    have h2 : decide (toks.getD k eos ≠ eos) = true :=
      decide_eq_true (h k (Nat.lt_succ_self k))
    simp only [activeAt, h1, h2, Bool.and_self]

lemma runScoreAux_score_sum {lp : Nat → ℚ} {toks : List Nat} {eos : Nat} :
    ∀ {k : Nat}, (∀ j, j < k → activeAt toks eos j = true) →
      (runScoreAux lp toks eos k).1 = ((List.range k).map lp).sum := by
  intro k
  induction k with
  | zero => intro _; simp [runScoreAux]
  | succ k ih =>
    intro h
    have hk : (runScoreAux lp toks eos k).2 = true := by
      rw [runScoreAux_active]; exact h k (Nat.lt_succ_self k)
    have : (runScoreAux lp toks eos (k + 1)).1 = (runScoreAux lp toks eos k).1 + lp k := by
      simp [runScoreAux, hk]
    rw [this, ih (fun j hj => h j (Nat.lt_succ_of_lt hj)), List.range_succ]
    simp

/-- Claim C3: in score mode, for every batch element, once the target token
read at some timestep equals the target EOS id, the running score for that
element is unchanged by every subsequent timestep, no matter what padding
tokens follow in the ground-truth tensor. -/
theorem score_frozen_after_eos (lp : Nat → ℚ) (toks : List Nat) (eos k0 : Nat)
    (_hk0 : k0 < toks.length) (heos : toks.getD k0 eos = eos) :
    ∀ k, k0 < k →
      (runScoreAux lp toks eos (k + 1)).1 = (runScoreAux lp toks eos k).1 := by
  intro k hk
  have hd : decide (toks.getD k0 eos ≠ eos) = false :=
    decide_eq_false (fun hne => hne heos)
  have hf0 : activeAt toks eos (k0 + 1) = false := by
    simp only [activeAt, hd, Bool.and_false]
  have hfk : (runScoreAux lp toks eos k).2 = false := by
    rw [runScoreAux_active]
    exact activeAt_false_mono (Nat.succ_le_of_lt hk) hf0
  exact runScoreAux_score_succ_of_false hfk

/-- Claim C3 witness: a concrete run in which the target column reads EOS (id
2) at timestep 1; the score accumulated over three timesteps equals the score
accumulated over two. -/
theorem score_frozen_after_eos_witness :
    (runScoreAux (fun k => (k : ℚ) + 1) [5, 2, 7] 2 3).1 =
      (runScoreAux (fun k => (k : ℚ) + 1) [5, 2, 7] 2 2).1 :=
  score_frozen_after_eos (fun k => (k : ℚ) + 1) [5, 2, 7] 2 1 (by decide) (by decide)
    2 (by decide)

/-- Claim C10: in score mode, for every batch element whose target column has
its first EOS id at position e, the final running score equals the sum of the
selected-token log-probabilities for timesteps 0 through e inclusive: the EOS
step itself is counted (the active flag is cleared only after the
accumulation at the EOS step), and all later timesteps contribute exactly 0. -/
theorem final_score_sums_to_first_eos (lp : Nat → ℚ) (toks : List Nat) (eos e : Nat)
    (he : e < toks.length) (heos : toks.getD e eos = eos)
    (hfirst : ∀ k, k < e → toks.getD k eos ≠ eos) :
    runScore lp toks eos = ((List.range (e + 1)).map lp).sum := by
  have hact : ∀ j, j < e + 1 → activeAt toks eos j = true := by
    intro j hj
    exact activeAt_true_of_no_eos
      (fun i hi => hfirst i (Nat.lt_of_lt_of_le hi (Nat.lt_succ_iff.mp hj)))
  have hsum : (runScoreAux lp toks eos (e + 1)).1 = ((List.range (e + 1)).map lp).sum :=
    runScoreAux_score_sum hact
  have hd : decide (toks.getD e eos ≠ eos) = false :=
    decide_eq_false (fun hne => hne heos)
  have hf : activeAt toks eos (e + 1) = false := by
    simp only [activeAt, hd, Bool.and_false]
  have hconst := @runScoreAux_score_const lp toks eos (e + 1) hf toks.length
    (Nat.succ_le_of_lt he)
  rw [runScore, hconst, hsum]

/-- Claim C10 witness: target column [5, 2, 2] over EOS id 2 has its first EOS
at position 1; the final score is the sum of the log-probabilities of
timesteps 0 and 1. -/
theorem final_score_sums_to_first_eos_witness :
    runScore (fun k => (k : ℚ) + 1) [5, 2, 2] 2 =
      ((List.range 2).map (fun k => (k : ℚ) + 1)).sum :=
  final_score_sums_to_first_eos (fun k => (k : ℚ) + 1) [5, 2, 2] 2 1 (by decide)
    (by decide) (by decide)

/-- Claim C5: for every encoder, example, and batch element, the active mask
satisfies: position 0 is active; position k+1 is active iff position k is
active and the token read at position k is not the EOS id; consequently the
mask is monotonically non-increasing over timesteps (once false it stays
false); and the decoder's per-batch-element active flag obeys the same
monotonicity. -/
theorem active_mask_invariant (toks : List Nat) (eos : Nat) :
    activeAt toks eos 0 = true
    ∧ (∀ k, activeAt toks eos (k + 1) =
        (activeAt toks eos k && decide (toks.getD k eos ≠ eos)))
    ∧ (∀ j k, j ≤ k → activeAt toks eos k = true → activeAt toks eos j = true)
    ∧ (∀ lp : Nat → ℚ, ∀ j k, j ≤ k →
        (runScoreAux lp toks eos k).2 = true → (runScoreAux lp toks eos j).2 = true) := by
  refine ⟨rfl, fun k => rfl, fun j k h hk => activeAt_mono h hk, ?_⟩
  intro lp j k h hk
  rw [runScoreAux_active] at hk ⊢
  exact activeAt_mono h hk

/-- Claim C5 witness: on the concrete column [0, 2] with EOS id 2, position 1
is active, hence (by the monotonicity part) position 0 is active too, and the
decoder flag after one step being active gives the initial flag active. -/
theorem active_mask_invariant_witness :
    activeAt [0, 2] 2 0 = true
    ∧ (runScoreAux (fun _ => (1 : ℚ)) [0, 2] 2 0).2 = true :=
  ⟨(active_mask_invariant [0, 2] 2).2.2.1 0 1 (by decide) (by decide),
   (active_mask_invariant [0, 2] 2).2.2.2 (fun _ => (1 : ℚ)) 0 1 (by decide) (by decide)⟩

/-- Claim C4: with exactly one example, the decoder's pooled feature vector at
every timestep equals that example's own feature vector: the element-wise
maximum over the singleton list of per-example feature vectors built by the
loop on lines 273-277 is that vector itself. -/
theorem pooled_vector_single_example (feature : Nat → Nat → List ℚ) (k : Nat) :
    poolMax ((List.range 1).map (fun j => feature k j)) = feature k 0 := by
  have h1 : (List.range 1).map (fun j => feature k j) = [feature k 0] := by
    simp [List.range_succ]
  rw [h1]
  rfl

/-- Claim C8: sampleAndScore hands _run the raw batch_inputs (lines 132 and
140) instead of the tensorized inputs computed on line 130, so the preamble
of _run that reads inputs[i][j].size(0) fails on every cell (an
AttributeError on a raw example), while the argument that sample builds for
the very same batch is fully tensorized and the same preamble succeeds on
it. -/
theorem sampleAndScore_passes_untensorized_batch :
    runMaxLengths (sampleAndScoreRunArg demoBatch) = none
    ∧ sampleRunArg demoVocabs demoBatch =
        Except.ok [[RunCell.tensor [[0, 1]]], [RunCell.tensor [[0, 1, 2]]]]
    ∧ runMaxLengths
        ([[RunCell.tensor [[0, 1]]], [RunCell.tensor [[0, 1, 2]]]] :
          List (List (RunCell Nat))) = some [[2], [3]] :=
  ⟨rfl, rfl, rfl⟩

lemma sum_map_div (l : List ℚ) (c : ℚ) :
    (l.map (fun x => x / c)).sum = l.sum / c := by
  induction l with
  | nil => simp
  | cons x l ih => simp [ih, add_div]

lemma maskedExp_nonneg {e : List ℚ} {a : List Bool} (hpos : ∀ x ∈ e, 0 < x) :
    ∀ y ∈ maskedExp e a, 0 ≤ y := by
  intro y hy
  rcases List.mem_map.mp hy with ⟨p, hp, rfl⟩
  rcases p with ⟨x, b⟩
  have hx : x ∈ e := (List.of_mem_zip hp).1
  cases b with
  | false => simp
  | true => simpa using le_of_lt (hpos x hx)

lemma maskedExp_sum_pos :
    ∀ (e : List ℚ) (a : List Bool), e.length = a.length → (∀ x ∈ e, 0 < x) →
      true ∈ a → 0 < (maskedExp e a).sum := by
  intro e
  induction e with
  | nil =>
    intro a hlen _ hact
    have : a = [] := List.eq_nil_of_length_eq_zero hlen.symm
    rw [this] at hact
    exact absurd hact (List.not_mem_nil true)
  | cons x e ih =>
    intro a hlen hpos hact
    cases a with
    | nil => exact absurd hlen (by simp)
    | cons b a =>
      have hlen2 : e.length = a.length := by simpa using hlen
      have hpos2 : ∀ y ∈ e, 0 < y := fun y hy => hpos y (List.mem_cons_of_mem x hy)
      have hme : maskedExp (x :: e) (b :: a) = (if b then x else 0) :: maskedExp e a := by
        simp [maskedExp]
      cases b with
      | true =>
        have hrest : 0 ≤ (maskedExp e a).sum :=
          List.sum_nonneg (maskedExp_nonneg hpos2)
        have hx : 0 < x := hpos x (List.mem_cons_self x e)
        rw [hme]
        simpa using add_pos_of_pos_of_nonneg hx hrest
      | false =>
        have hact2 : true ∈ a := by
          rcases List.mem_cons.mp hact with h | h
          · exact absurd h (by simp)
          · exact h
        rw [hme]
        simpa using ih a hlen2 hpos2 hact2

lemma attend_filter_sum (S : ℚ) :
    ∀ (e : List ℚ) (a : List Bool),
      (((((maskedExp e a).map (fun x => x / S)).zip a).filter (fun p => p.2)).map
          Prod.fst).sum = (maskedExp e a).sum / S := by
  intro e
  induction e with
  | nil => intro a; simp [maskedExp]
  | cons x e ih =>
    intro a
    cases a with
    | nil => simp [maskedExp]
    | cons b a =>
      have hme : maskedExp (x :: e) (b :: a) = (if b then x else 0) :: maskedExp e a := by
        simp [maskedExp]
      rw [hme]
      cases b with
      | true => simp [List.filter_cons, ih a, add_div]
      | false => simp [List.filter_cons, ih a]

lemma maskedExp_get? :
    ∀ (e : List ℚ) (a : List Bool) (i : Nat) (x : ℚ) (b : Bool),
      e.get? i = some x → a.get? i = some b →
      (maskedExp e a).get? i = some (if b then x else 0) := by
  intro e
  induction e with
  | nil => intro a i x b hx _; simp at hx
  | cons y e ih =>
    intro a i x b hx hb
    cases a with
    | nil => simp at hb
    | cons c a =>
      cases i with
      | zero =>
        simp at hx hb
        simp [maskedExp, hx, hb]
      | succ i =>
        have : (maskedExp (y :: e) (c :: a)).get? (i + 1) = (maskedExp e a).get? i := by
          simp [maskedExp]
        rw [this]
        exact ih a i x b (by simpa using hx) (by simpa using hb)

/-- Claim C6: for every query and candidate set, given the attention bias
derived from an active mask with at least one active position, the attention
weights sum to 1 over the active positions and are exactly 0 at every
inactive position.  The list e holds the exponentials of the raw bilinear
scores (hence the positivity hypothesis: an exponential is positive), so that
softmax(score + log mask) is exactly the masked-exponential normalization
embodied by attendWeights. -/
theorem attention_weights_normalized (e : List ℚ) (a : List Bool)
    (hlen : e.length = a.length) (hpos : ∀ x ∈ e, 0 < x) (hact : true ∈ a) :
    activeWeightSum e a = 1
    ∧ ∀ i, a.get? i = some false → (attendWeights e a).get? i = some 0 := by
  have hS : 0 < (maskedExp e a).sum := maskedExp_sum_pos e a hlen hpos hact
  constructor
  · have h1 := attend_filter_sum ((maskedExp e a).sum) e a
    rw [activeWeightSum, attendWeights, h1, div_self (ne_of_gt hS)]
  · intro i hi
    have hia : i < a.length := by
      rcases List.get?_eq_some.mp hi with ⟨h, _⟩
      exact h
    have hie : i < e.length := hlen ▸ hia
    have hx : e.get? i = some (e.get ⟨i, hie⟩) := List.get?_eq_get hie
    have hm := maskedExp_get? e a i (e.get ⟨i, hie⟩) false hx hi
    rw [attendWeights, List.get?_map, hm]
    simp

/-- Claim C6 witness: a single active position with exponentiated score 1
yields total active weight 1. -/
theorem attention_weights_normalized_witness : activeWeightSum [1] [true] = 1 :=
  (attention_weights_normalized [1] [true] (by decide) (by decide) (by decide)).1

lemma map_append_get_lt {β γ : Type} (l : List β) (f : β → γ) (b : γ) (i : Nat)
    (tok : β) (h : l.get? i = some tok) : ((l.map f) ++ [b]).get? i = some (f tok) := by
  have hi : i < l.length := (List.get?_eq_some.mp h).1
  rw [List.get?_append (by simpa using hi), List.get?_map, h]
  rfl

lemma map_append_get_last {β γ : Type} (l : List β) (f : β → γ) (b : γ) :
    ((l.map f) ++ [b]).get? l.length = some b := by
  rw [show l.length = (l.map f).length by simp, List.get?_append_right (le_refl _)]
  simp

lemma getD_eq_some_get {β : Type} (l : List β) (j : Nat) (d : β) (h : j < l.length) :
    some (l.getD j d) = l.get? j := by
  rw [List.getD_eq_get?, List.get?_eq_get h]
  rfl

lemma getLastD_eq_some_getLast {β : Type} (l : List β) (d : β) (h : l ≠ []) :
    some (l.getLastD d) = l.getLast? := by
  rw [List.getLastD_eq_getLast?, List.getLast?_eq_getLast_of_ne_nil h]
  rfl

/-- Claim C1: after with_target_vocabulary over a different vocabulary, for
every token present in both the old and the new target vocabulary, the
returned model's output-projection weight row, output-projection bias entry,
and decoder-input weight column for that token equal the pre-transfer values
at the token's old index exactly; for every token only in the new vocabulary,
the bias entry is the constant -10 and the corresponding weight row / column
is all zeros; the EOS row / column is placed last, at index equal to the new
vocabulary length, and equals the old model's last row / column.  The
well-formedness hypotheses say the old parameters have one row / entry /
column per old token plus the EOS slot, as constructed on lines 58-59. -/
theorem vocab_transfer_preserves {α : Type} [DecidableEq α] (m : RFModel α)
    (tv : List α) (hne : tv ≠ m.target_vocabulary)
    (hW : m.Vweight.length = m.target_vocabulary.length + 1)
    (hB : m.Vbias.length = m.target_vocabulary.length + 1)
    (hD : m.decoder_ih.length = m.target_vocabulary.length + 1) :
    withTargetVocabulary m tv = some (transfer m tv, transfer m tv)
    ∧ (transfer m tv).Vweight.length = tv.length + 1
    ∧ (transfer m tv).Vbias.length = tv.length + 1
    ∧ (transfer m tv).decoder_ih.length = tv.length + 1
    ∧ (∀ i tok, tv.get? i = some tok → tok ∈ m.target_vocabulary →
        (transfer m tv).Vweight.get? i =
          m.Vweight.get? (m.target_vocabulary.indexOf tok)
        ∧ (transfer m tv).Vbias.get? i =
          m.Vbias.get? (m.target_vocabulary.indexOf tok)
        ∧ (transfer m tv).decoder_ih.get? i =
          m.decoder_ih.get? (m.target_vocabulary.indexOf tok))
    ∧ (∀ i tok, tv.get? i = some tok → tok ∉ m.target_vocabulary →
        (transfer m tv).Vweight.get? i =
          some (List.replicate (m.Vweight.headD []).length 0)
        ∧ (transfer m tv).Vbias.get? i = some (-10)
        ∧ (transfer m tv).decoder_ih.get? i =
          some (List.replicate (m.decoder_ih.headD []).length 0))
    ∧ ((transfer m tv).Vweight.get? tv.length = m.Vweight.getLast?
        ∧ (transfer m tv).Vbias.get? tv.length = m.Vbias.getLast?
        ∧ (transfer m tv).decoder_ih.get? tv.length = m.decoder_ih.getLast?) := by
  have hidx : ∀ tok, tok ∈ m.target_vocabulary →
      m.target_vocabulary.indexOf tok < m.target_vocabulary.length :=
    fun tok h => List.indexOf_lt_length.mpr h
  refine ⟨?_, by simp [transfer], by simp [transfer], by simp [transfer], ?_, ?_, ?_, ?_, ?_⟩
  · rw [withTargetVocabulary, if_neg hne]
  · intro i tok hi hmem
    refine ⟨?_, ?_, ?_⟩
    · rw [show (transfer m tv).Vweight = (tv.map (fun tok =>
          if tok ∈ m.target_vocabulary then
            m.Vweight.getD (m.target_vocabulary.indexOf tok) []
          else List.replicate (m.Vweight.headD []).length 0)) ++
          [m.Vweight.getLastD []] from rfl,
        map_append_get_lt tv _ _ i tok hi, if_pos hmem]
      exact getD_eq_some_get _ _ _ (lt_of_lt_of_le (hidx tok hmem) (by omega))
    · rw [show (transfer m tv).Vbias = (tv.map (fun tok =>
          if tok ∈ m.target_vocabulary then
            m.Vbias.getD (m.target_vocabulary.indexOf tok) 0
          else (-10 : ℚ))) ++ [m.Vbias.getLastD 0] from rfl,
        map_append_get_lt tv _ _ i tok hi, if_pos hmem]
      exact getD_eq_some_get _ _ _ (lt_of_lt_of_le (hidx tok hmem) (by omega))
    · rw [show (transfer m tv).decoder_ih = (tv.map (fun tok =>
          if tok ∈ m.target_vocabulary then
            m.decoder_ih.getD (m.target_vocabulary.indexOf tok) []
          else List.replicate (m.decoder_ih.headD []).length 0)) ++
          [m.decoder_ih.getLastD []] from rfl,
        map_append_get_lt tv _ _ i tok hi, if_pos hmem]
      exact getD_eq_some_get _ _ _ (lt_of_lt_of_le (hidx tok hmem) (by omega))
  · intro i tok hi hmem
    refine ⟨?_, ?_, ?_⟩
    · rw [show (transfer m tv).Vweight = (tv.map (fun tok =>
          if tok ∈ m.target_vocabulary then
            m.Vweight.getD (m.target_vocabulary.indexOf tok) []
          else List.replicate (m.Vweight.headD []).length 0)) ++
          [m.Vweight.getLastD []] from rfl,
        map_append_get_lt tv _ _ i tok hi, if_neg hmem]
    · rw [show (transfer m tv).Vbias = (tv.map (fun tok =>
          if tok ∈ m.target_vocabulary then
            m.Vbias.getD (m.target_vocabulary.indexOf tok) 0
          else (-10 : ℚ))) ++ [m.Vbias.getLastD 0] from rfl,
        map_append_get_lt tv _ _ i tok hi, if_neg hmem]
    · rw [show (transfer m tv).decoder_ih = (tv.map (fun tok =>
          if tok ∈ m.target_vocabulary then
            m.decoder_ih.getD (m.target_vocabulary.indexOf tok) []
          else List.replicate (m.decoder_ih.headD []).length 0)) ++
          [m.decoder_ih.getLastD []] from rfl,
        map_append_get_lt tv _ _ i tok hi, if_neg hmem]
  · rw [show (transfer m tv).Vweight = (tv.map (fun tok =>
        if tok ∈ m.target_vocabulary then
          m.Vweight.getD (m.target_vocabulary.indexOf tok) []
        else List.replicate (m.Vweight.headD []).length 0)) ++
        [m.Vweight.getLastD []] from rfl,
      map_append_get_last]
    exact getLastD_eq_some_getLast _ _ (by intro h; rw [h] at hW; simp at hW)
  · rw [show (transfer m tv).Vbias = (tv.map (fun tok =>
        if tok ∈ m.target_vocabulary then
          m.Vbias.getD (m.target_vocabulary.indexOf tok) 0
        else (-10 : ℚ))) ++ [m.Vbias.getLastD 0] from rfl,
      map_append_get_last]
    exact getLastD_eq_some_getLast _ _ (by intro h; rw [h] at hB; simp at hB)
  · rw [show (transfer m tv).decoder_ih = (tv.map (fun tok =>
        if tok ∈ m.target_vocabulary then
          m.decoder_ih.getD (m.target_vocabulary.indexOf tok) []
        else List.replicate (m.decoder_ih.headD []).length 0)) ++
        [m.decoder_ih.getLastD []] from rfl,
      map_append_get_last]
    exact getLastD_eq_some_getLast _ _ (by intro h; rw [h] at hD; simp at hD)

/-- Claim C1 witness: transferring the concrete one-token model to the
vocabulary [1, 0] gives bias -10 for the new token 1, copies the row of the
shared token 0, and appends the old EOS row last. -/
theorem vocab_transfer_preserves_witness :
    (transfer demoModel [1, 0]).Vbias.get? 0 = some (-10)
    ∧ (transfer demoModel [1, 0]).Vweight.get? 1 =
        demoModel.Vweight.get? (demoModel.target_vocabulary.indexOf 0)
    ∧ (transfer demoModel [1, 0]).Vweight.get? 2 = demoModel.Vweight.getLast? := by
  have h := vocab_transfer_preserves demoModel [1, 0] (by decide) (by decide) (by decide)
    (by decide)
  exact ⟨(h.2.2.2.2.2.1 0 1 (by decide) (by decide)).2.1,
    (h.2.2.2.2.1 1 0 (by decide) (by decide)).1,
    h.2.2.2.2.2.2.1⟩

/-- Claim C7 counterexample: the claim says the original model's target
vocabulary (and parameters) after the call equal the pre-call values, yet
after with_target_vocabulary(demoModel, [1]) the original model (the first
component, the state of self after the in-place writes of lines 89-97) holds
the new vocabulary [1], not the old [0]. -/
theorem with_target_vocab_original_changed :
    ((withTargetVocabulary demoModel [1]).map (fun p => p.1.target_vocabulary)) ≠
      some demoModel.target_vocabulary := by
  decide

/-- Claim C7 (amended): for a genuinely new vocabulary, with_target_vocabulary
mutates the original model in place to the transferred parameters and returns
a deep copy of that mutated model: the returned model is an equal but
independent value, its vocabulary is the new one, and the original is NOT
restored to its pre-call state (it equals the transferred model too). -/
theorem with_target_vocab_returns_copy {α : Type} [DecidableEq α] (m : RFModel α)
    (tv : List α) (hne : tv ≠ m.target_vocabulary) :
    withTargetVocabulary m tv = some (transfer m tv, transfer m tv)
    ∧ (transfer m tv).target_vocabulary = tv := by
  rw [withTargetVocabulary, if_neg hne]
  exact ⟨rfl, rfl⟩

/-- Claim C7 (amended) witness: the concrete call on the one-token model. -/
theorem with_target_vocab_returns_copy_witness :
    withTargetVocabulary demoModel [1] =
      some (transfer demoModel [1], transfer demoModel [1])
    ∧ (transfer demoModel [1]).target_vocabulary = [1] :=
  with_target_vocab_returns_copy demoModel [1] (by decide)

lemma mem_of_getLast?_eq {β : Type} {l : List β} {b : β} (h : l.getLast? = some b) :
    b ∈ l := by
  rcases List.mem_getLast?_eq_getLast (Option.mem_def.mpr h) with ⟨hne, hb⟩
  rw [hb]
  exact List.getLast_mem hne

lemma vocabIndexOf_eq_none {α : Type} [DecidableEq α] (vocab : List α) (tok : α) :
    vocabIndexOf vocab tok = none ↔ tok ∉ vocab := by
  rw [vocabIndexOf, List.getLast?_eq_none_iff, List.filter_eq_nil_iff]
  constructor
  · intro h hmem
    rcases List.mem_iff_get.mp hmem with ⟨⟨n, hn⟩, hv⟩
    refine h n (List.mem_range.mpr hn) ?_
    rw [List.get?_eq_get hn, hv]
    simp
  · intro hmem n _ hdec
    have h2 : vocab.get? n = some tok := of_decide_eq_true hdec
    exact hmem (List.get?_mem h2)

lemma vocabIndexOf_get? {α : Type} [DecidableEq α] {vocab : List α} {tok : α} {j : Nat}
    (h : vocabIndexOf vocab tok = some j) : vocab.get? j = some tok := by
  have hj := mem_of_getLast?_eq h
  exact of_decide_eq_true (List.mem_filter.mp hj).2

lemma encodeTok_ok_mem {α : Type} [DecidableEq α] {vocab : List α} {tok : α} {y : Nat}
    (h : encodeTok vocab tok = Except.ok y) : tok ∈ vocab := by
  by_contra hmem
  rw [encodeTok, (vocabIndexOf_eq_none vocab tok).mpr hmem] at h
  exact Except.noConfusion h

lemma encodeTok_error {α : Type} [DecidableEq α] {vocab : List α} {tok : α} {e : EncodeErr}
    (h : encodeTok vocab tok = Except.error e) :
    e = EncodeErr.unknownToken ∧ tok ∉ vocab := by
  rw [encodeTok] at h
  cases hv : vocabIndexOf vocab tok with
  | some j => rw [hv] at h; exact Except.noConfusion h
  | none =>
    rw [hv] at h
    refine ⟨(Except.error.inj h).symm, (vocabIndexOf_eq_none vocab tok).mp hv⟩

lemma encodeTok_of_mem {α : Type} [DecidableEq α] {vocab : List α} {tok : α}
    (h : tok ∈ vocab) :
    encodeTok vocab tok = Except.ok ((vocabIndexOf vocab tok).getD 0) := by
  cases hv : vocabIndexOf vocab tok with
  | some j => rw [encodeTok, hv]; rfl
  | none => exact absurd ((vocabIndexOf_eq_none vocab tok).mp hv) (by simp [h])

lemma mapM_ok_iff {β γ : Type} (f : β → Except EncodeErr γ) :
    ∀ l : List β, (∃ v, l.mapM f = Except.ok v) ↔ ∀ x ∈ l, ∃ y, f x = Except.ok y := by
  intro l
  induction l with
  | nil => simp [List.mapM_nil]; exact ⟨[], rfl⟩
  | cons a l ih =>
    rw [List.mapM_cons]
    constructor
    · rintro ⟨v, hv⟩ x hx
      cases hfa : f a with
      | error e => rw [hfa] at hv; exact Except.noConfusion hv
      | ok y =>
        rw [hfa] at hv
        cases hml : l.mapM f with
        | error e => rw [hml] at hv; exact Except.noConfusion hv
        | ok ys =>
          rcases List.mem_cons.mp hx with h | h
          · exact ⟨y, h ▸ hfa⟩
          · exact (ih.mp ⟨ys, hml⟩) x h
    · intro h
      rcases h a (List.mem_cons_self a l) with ⟨y, hy⟩
      rcases ih.mpr (fun x hx => h x (List.mem_cons_of_mem a hx)) with ⟨ys, hys⟩
      exact ⟨y :: ys, by rw [hy, hys]; rfl⟩

lemma mapM_error_mem {β γ : Type} (f : β → Except EncodeErr γ) :
    ∀ (l : List β) (e : EncodeErr), l.mapM f = Except.error e →
      ∃ x ∈ l, f x = Except.error e := by
  intro l
  induction l with
  | nil => intro e h; exact Except.noConfusion h
  | cons a l ih =>
    intro e h
    rw [List.mapM_cons] at h
    cases hfa : f a with
    | error e2 =>
      rw [hfa] at h
      have he : e2 = e := Except.error.inj h
      exact ⟨a, List.mem_cons_self a l, he ▸ hfa⟩
    | ok y =>
      rw [hfa] at h
      cases hml : l.mapM f with
      | error e2 =>
        rw [hml] at h
        have he : e2 = e := Except.error.inj h
        rcases ih e2 hml with ⟨x, hx, hfx⟩
        exact ⟨x, List.mem_cons_of_mem a hx, he ▸ hfx⟩
      | ok ys => rw [hml] at h; exact Except.noConfusion h

lemma mapM_congr_ok {β γ : Type} (f : β → Except EncodeErr γ) (g : β → γ) :
    ∀ l : List β, (∀ x ∈ l, f x = Except.ok (g x)) →
      l.mapM f = Except.ok (l.map g) := by
  intro l
  induction l with
  | nil => intro _; rfl
  | cons a l ih =>
    intro h
    rw [List.mapM_cons, h a (List.mem_cons_self a l),
      ih (fun x hx => h x (List.mem_cons_of_mem a hx))]
    rfl

lemma exceptMap_eq_error {γ δ : Type} (x : Except EncodeErr γ) (g : γ → δ)
    (e : EncodeErr) : x.map g = Except.error e ↔ x = Except.error e := by
  cases x <;> simp [Except.map]

lemma exceptMap_ok_iff {γ δ : Type} (x : Except EncodeErr γ) (g : γ → δ) :
    (∃ y, x.map g = Except.ok y) ↔ ∃ v, x = Except.ok v := by
  cases x <;> simp [Except.map]

lemma encodeSeq_ok_of_mem {α : Type} [DecidableEq α] {vocab : List α} {s : List α}
    (h : ∀ t ∈ s, t ∈ vocab) :
    encodeSeq vocab s = Except.ok (s.map (fun t => (vocabIndexOf vocab t).getD 0)) :=
  mapM_congr_ok _ _ s (fun t ht => encodeTok_of_mem (h t ht))

lemma idx_get_back {α : Type} [DecidableEq α] [Inhabited α] {vocab : List α} {tok : α}
    (h : tok ∈ vocab) :
    (vocabIndexOf vocab tok).getD 0 < vocab.length
    ∧ vocab.getD ((vocabIndexOf vocab tok).getD 0) default = tok := by
  cases hv : vocabIndexOf vocab tok with
  | none => exact absurd ((vocabIndexOf_eq_none vocab tok).mp hv) (by simp [h])
  | some j =>
    have hg : vocab.get? j = some tok := vocabIndexOf_get? hv
    have hj : j < vocab.length := (List.get?_eq_some.mp hg).1
    refine ⟨by simpa using hj, ?_⟩
    rw [Option.getD_some, List.getD_eq_get?, hg]
    rfl

lemma le_foldr_max : ∀ (l : List Nat) (x : Nat), x ∈ l → x ≤ l.foldr max 0 := by
  intro l
  induction l with
  | nil => intro x hx; exact absurd hx (List.not_mem_nil x)
  | cons a l ih =>
    intro x hx
    rcases List.mem_cons.mp hx with h | h
    · rw [h]; exact le_max_left a (l.foldr max 0)
    · exact le_trans (ih x h) (le_max_right a (l.foldr max 0))

lemma decodeCol_encode {α : Type} [DecidableEq α] [Inhabited α] (vocab : List α)
    (s : List α) (pad : Nat) (hpad : 0 < pad) (h : ∀ t ∈ s, t ∈ vocab) :
    decodeCol vocab
      ((s.map (fun t => (vocabIndexOf vocab t).getD 0)) ++
        List.replicate pad vocab.length) = s := by
  obtain ⟨m, rfl⟩ : ∃ m, pad = m + 1 :=
    ⟨pad - 1, (Nat.succ_pred_eq_of_pos hpad).symm⟩
  cases s with
  | nil => simp [decodeCol, List.replicate_succ]
  | cons t s =>
    have hlt : ∀ x ∈ (t :: s).map (fun t => (vocabIndexOf vocab t).getD 0),
        x < vocab.length := by
      intro x hx
      rcases List.mem_map.mp hx with ⟨u, hu, rfl⟩
      exact (idx_get_back (h u hu)).1
    have hhead : ((t :: s).map (fun t => (vocabIndexOf vocab t).getD 0) ++
        List.replicate (m + 1) vocab.length).headD vocab.length =
        (vocabIndexOf vocab t).getD 0 := rfl
    have hne : (vocabIndexOf vocab t).getD 0 ≠ vocab.length :=
      ne_of_lt (hlt _ (List.mem_map_of_mem _ (List.mem_cons_self t s)))
    have hmem : vocab.length ∈ (t :: s).map (fun t => (vocabIndexOf vocab t).getD 0) ++
        List.replicate (m + 1) vocab.length :=
      List.mem_append_right _ (List.mem_replicate.mpr ⟨Nat.succ_ne_zero m, rfl⟩)
    have hnotm : vocab.length ∉ (t :: s).map (fun t => (vocabIndexOf vocab t).getD 0) :=
      fun hx => absurd rfl (ne_of_lt (hlt _ hx))
    have hidx : ((t :: s).map (fun t => (vocabIndexOf vocab t).getD 0) ++
        List.replicate (m + 1) vocab.length).indexOf vocab.length =
        ((t :: s).map (fun t => (vocabIndexOf vocab t).getD 0)).length := by
      rw [List.indexOf_append_of_not_mem hnotm, List.replicate_succ,
        List.indexOf_cons_self]
      exact Nat.add_zero _
    rw [decodeCol, hhead, if_neg hne, if_pos hmem, hidx, List.take_left,
      List.map_map]
    have : ∀ u ∈ t :: s,
        (fun x => vocab.getD x default) ((vocabIndexOf vocab u).getD 0) = u :=
      fun u hu => (idx_get_back (h u hu)).2
    calc ((t :: s).map ((fun x => vocab.getD x default) ∘
            (fun t => (vocabIndexOf vocab t).getD 0)))
        = (t :: s).map id := List.map_congr_left this
      _ = t :: s := List.map_id (t :: s)

/-- Claim C2: for every nonempty batch of token sequences over the target
vocabulary, decoding the encoded batch returns the original sequences
column-by-column; in particular a batch element that is the empty sequence
round-trips to the empty sequence. -/
theorem decode_encode_roundtrip {α : Type} [DecidableEq α] [Inhabited α]
    (vocab : List α) (targets : List (List α)) (hbatch : targets ≠ [])
    (htok : ∀ s ∈ targets, ∀ t ∈ s, t ∈ vocab) :
    (targetToTensor vocab targets).map (tensorToOutput vocab) = Except.ok targets := by
  rw [targetToTensor, if_neg hbatch]
  have hok : targets.mapM (fun s => (encodeSeq vocab s).map (fun ids =>
      ids ++ List.replicate ((targets.map List.length).foldr max 0 + 1 - s.length)
        vocab.length)) =
      Except.ok (targets.map (fun s =>
        (s.map (fun t => (vocabIndexOf vocab t).getD 0)) ++
          List.replicate ((targets.map List.length).foldr max 0 + 1 - s.length)
            vocab.length)) :=
    mapM_congr_ok _ _ targets
      (fun s hs => by rw [encodeSeq_ok_of_mem (htok s hs)]; rfl)
  rw [hok]
  show Except.ok (tensorToOutput vocab _) = _
  rw [tensorToOutput, List.map_map]
  have hcol : ∀ s ∈ targets, (decodeCol vocab ∘ (fun s =>
      (s.map (fun t => (vocabIndexOf vocab t).getD 0)) ++
        List.replicate ((targets.map List.length).foldr max 0 + 1 - s.length)
          vocab.length)) s = id s := by
    intro s hs
    have hlen : s.length ≤ (targets.map List.length).foldr max 0 :=
      le_foldr_max _ _ (List.mem_map_of_mem List.length hs)
    have hpad : 0 < (targets.map List.length).foldr max 0 + 1 - s.length := by omega
    exact decodeCol_encode vocab s _ hpad (htok s hs)
  rw [List.map_congr_left hcol, List.map_id]

/-- Claim C2 witness: a concrete two-element batch, one sequence using both
vocabulary tokens and one empty sequence, round-trips exactly. -/
theorem decode_encode_roundtrip_witness :
    (targetToTensor [10, 20] [[10, 20], []]).map (tensorToOutput [10, 20]) =
      Except.ok [[10, 20], []] :=
  decode_encode_roundtrip [10, 20] [[10, 20], []] (by decide) (by decide)

lemma encodeSeq_error_eq {α : Type} [DecidableEq α] {vocab : List α} {s : List α}
    {e : EncodeErr} (h : encodeSeq vocab s = Except.error e) :
    e = EncodeErr.unknownToken := by
  rcases mapM_error_mem _ s e h with ⟨t, _, hft⟩
  exact (encodeTok_error hft).1

lemma encodeSeq_error_iff {α : Type} [DecidableEq α] (vocab : List α) (s : List α) :
    encodeSeq vocab s = Except.error EncodeErr.unknownToken ↔ ∃ t ∈ s, t ∉ vocab := by
  constructor
  · intro h
    rcases mapM_error_mem _ s _ h with ⟨t, ht, hft⟩
    exact ⟨t, ht, (encodeTok_error hft).2⟩
  · rintro ⟨t, ht, htv⟩
    cases h : encodeSeq vocab s with
    | ok v =>
      rcases (mapM_ok_iff _ s).mp ⟨v, h⟩ t ht with ⟨y, hy⟩
      exact absurd (encodeTok_ok_mem hy) htv
    | error e => rw [encodeSeq_error_eq h]

lemma getD_mem_of_lt {β : Type} (l : List β) (j : Nat) (d : β) (h : j < l.length) :
    l.getD j d ∈ l := by
  rw [List.getD_eq_get?, List.get?_eq_get h]
  exact List.get_mem l j h

/-- Claim C9: encoding fails with an UnknownTokenError exactly when some token
of an input or target sequence is absent from its vocabulary; the failure is
produced by the tensorization functions themselves (before any
encoder/decoder computation), with no silent truncation or coercion of the
offending token.  The shape hypothesis restricts to well-shaped batches
(every instance has the number of examples read off the first instance, and
every example carries one sequence per encoder), the only shapes on which
_inputsToTensors runs its lookups rather than dying on an IndexError. -/
theorem encoding_fails_iff_unknown_token {α : Type} [DecidableEq α]
    (vocabs : List (List α)) (tvocab : List α)
    (inputsss : List (List (List (List α)))) (targets : List (List α))
    (hshape : ∀ x ∈ inputsss, x.length = (inputsss.headD []).length
      ∧ ∀ ex ∈ x, ex.length = vocabs.length) :
    (inputsToTensors vocabs inputsss = Except.error EncodeErr.unknownToken ↔
      ∃ x ∈ inputsss, ∃ ex ∈ x, ∃ i, i < vocabs.length
        ∧ ∃ t ∈ ex.getD i [], t ∉ vocabs.getD i [])
    ∧ (targetToTensor tvocab targets = Except.error EncodeErr.unknownToken ↔
      ∃ s ∈ targets, ∃ t ∈ s, t ∉ tvocab) := by
  constructor
  · by_cases hb : inputsss = []
    · subst hb
      rw [inputsToTensors]
      simp
    · rw [inputsToTensors, if_neg hb]
      constructor
      · intro h
        rcases mapM_error_mem _ _ _ h with ⟨i, hi, hFi⟩
        rcases mapM_error_mem _ _ _ hFi with ⟨j, hj, hGj⟩
        rcases mapM_error_mem _ _ _ hGj with ⟨colS, hcol, hfT⟩
        rcases List.mem_map.mp hcol with ⟨x, hx, hxcol⟩
        rw [exceptMap_eq_error] at hfT
        rcases (encodeSeq_error_iff _ _).mp hfT with ⟨t, ht, htv⟩
        have hjx : j < x.length := by
          rw [(hshape x hx).1]
          exact List.mem_range.mp hj
        refine ⟨x, hx, x.getD j [], getD_mem_of_lt x j [] hjx,
          i, List.mem_range.mp hi, t, ?_, htv⟩
        rw [hxcol]
        exact ht
      · rintro ⟨x, hx, ex, hex, i, hi, t, ht, htv⟩
        rcases List.mem_iff_get.mp hex with ⟨⟨j, hj⟩, hget⟩
        have hjn : j < (inputsss.headD []).length := by
          rw [← (hshape x hx).1]
          exact hj
        have hxj : x.getD j [] = ex := by
          rw [List.getD_eq_get?, List.get?_eq_get hj, hget]
          rfl
        cases hE : (List.range vocabs.length).mapM
            (fun i => (List.range (inputsss.headD []).length).mapM (fun j =>
              (inputsss.map (fun x => (x.getD j []).getD i [])).mapM (fun s =>
                (encodeSeq (vocabs.getD i []) s).map (fun ids =>
                  ids ++ List.replicate
                    (((inputsss.map (fun x => (x.getD j []).getD i [])).map
                      List.length).foldr max 0 + 1 - s.length)
                    (vocabs.getD i []).length)))) with
        | ok v =>
          rcases (mapM_ok_iff _ _).mp ⟨v, hE⟩ i (List.mem_range.mpr hi) with ⟨vi, hFi⟩
          rcases (mapM_ok_iff _ _).mp ⟨vi, hFi⟩ j (List.mem_range.mpr hjn) with ⟨vj, hGj⟩
          have hcol : (x.getD j []).getD i [] ∈
              inputsss.map (fun x => (x.getD j []).getD i []) :=
            List.mem_map_of_mem _ hx
          rcases (mapM_ok_iff _ _).mp ⟨vj, hGj⟩ _ hcol with ⟨y, hy⟩
          rcases (exceptMap_ok_iff _ _).mp ⟨y, hy⟩ with ⟨ids, hids⟩
          rcases (mapM_ok_iff _ _).mp ⟨ids, hids⟩ t (by rw [hxj]; exact ht) with ⟨w, hw⟩
          exact absurd (encodeTok_ok_mem hw) htv
        | error e =>
          rcases mapM_error_mem _ _ _ hE with ⟨i2, _, hFi⟩
          rcases mapM_error_mem _ _ _ hFi with ⟨j2, _, hGj⟩
          rcases mapM_error_mem _ _ _ hGj with ⟨colS, _, hfT⟩
          rw [exceptMap_eq_error] at hfT
          rw [encodeSeq_error_eq hfT]
  · by_cases hb : targets = []
    · subst hb
      rw [targetToTensor]
      simp
    · rw [targetToTensor, if_neg hb]
      constructor
      · intro h
        rcases mapM_error_mem _ _ _ h with ⟨s, hs, hfs⟩
        rw [exceptMap_eq_error] at hfs
        rcases (encodeSeq_error_iff _ _).mp hfs with ⟨t, ht, htv⟩
        exact ⟨s, hs, t, ht, htv⟩
      · rintro ⟨s, hs, t, ht, htv⟩
        cases hM : targets.mapM (fun s => (encodeSeq tvocab s).map (fun ids =>
            ids ++ List.replicate
              ((targets.map List.length).foldr max 0 + 1 - s.length)
              tvocab.length)) with
        | ok v =>
          rcases (mapM_ok_iff _ _).mp ⟨v, hM⟩ s hs with ⟨y, hy⟩
          rcases (exceptMap_ok_iff _ _).mp ⟨y, hy⟩ with ⟨ids, hids⟩
          rcases (mapM_ok_iff _ _).mp ⟨ids, hids⟩ t ht with ⟨w, hw⟩
          exact absurd (encodeTok_ok_mem hw) htv
        | error e =>
          rcases mapM_error_mem _ _ _ hM with ⟨s2, _, hfs2⟩
          rw [exceptMap_eq_error] at hfs2
          rw [encodeSeq_error_eq hfs2]

/-- Claim C9 witness: a batch whose single input sequence holds the token 5,
absent from the input vocabulary [0], makes input tensorization fail with the
unknown-token error, and a target sequence holding 5 over target vocabulary
[0] makes target tensorization fail the same way. -/
theorem encoding_fails_iff_unknown_token_witness :
    inputsToTensors [[0]] [[[[(5 : Nat)]]]] = Except.error EncodeErr.unknownToken
    ∧ targetToTensor [(0 : Nat)] [[5]] = Except.error EncodeErr.unknownToken := by
  have h := encoding_fails_iff_unknown_token [[0]] [(0 : Nat)] [[[[(5 : Nat)]]]] [[5]]
    (by decide)
  exact ⟨h.1.mpr ⟨[[[5]]], by decide, [[5]], by decide, 0, by decide, 5, by decide,
      by decide⟩,
    h.2.mpr ⟨[5], by decide, 5, by decide, by decide⟩⟩

end RobustFill
